import Mathlib

/-!
Verification development for the twilight-dispatch gateway proxy.

The definitions below are a shallow embedding of the Rust sources:
src/cache.rs (Redis state-cache projection), src/utils.rs (admission
queue, cluster partitioning, resume gating, key splitting),
src/handler.rs (outgoing event pump and incoming command router),
src/constants.rs (key constants) and src/models.rs (wire structs).
Redis itself is modelled as a record of total functions (string keys to
optional values, set names to member lists, expiry-hash fields to
timestamps); each Redis command used by the source becomes a pure state
transformer.  Machine integers are modelled as Nat: none of the claims
proved here depend on 64-bit overflow behaviour.
-/

namespace Dispatch

/-! ## Constants (src/constants.rs) -/

def GUILD_KEY : String := "guild"
def CHANNEL_KEY : String := "channel"
def MESSAGE_KEY : String := "message"
def ROLE_KEY : String := "role"
def MEMBER_KEY : String := "member"
def KEYS_SUFFIX : String := "_keys"
def EXCHANGE : String := "gateway"
def QUEUE_SEND : String := "gateway.send"
def SESSIONS_KEY : String := "gateway_sessions"
def SHARDS_KEY : String := "gateway_shards"

/-- guild_key from src/constants.rs: format!("{}:{}", GUILD_KEY, guild). -/
def guild_key (g : Nat) : String := GUILD_KEY ++ ":" ++ toString g

/-- channel_key from src/constants.rs. -/
def channel_key (g c : Nat) : String :=
  CHANNEL_KEY ++ ":" ++ toString g ++ ":" ++ toString c

/-- role_key from src/constants.rs. -/
def role_key (g r : Nat) : String :=
  ROLE_KEY ++ ":" ++ toString g ++ ":" ++ toString r

/-- member_key from src/constants.rs. -/
def member_key (g u : Nat) : String :=
  MEMBER_KEY ++ ":" ++ toString g ++ ":" ++ toString u

/-! ## Key splitting (src/utils.rs get_keys) -/

/-- Structural splitting of a character list on the colon character,
with the semantics of Rust str::split(the empty string yields one empty
part, separators at the ends yield empty parts). -/
def splitCols : List Char → List (List Char)
  | [] => [[]]
  | c :: cs =>
    match splitCols cs with
    | [] => [[]]
    | p :: ps => if c = ':' then [] :: p :: ps else (c :: p) :: ps

/-- get_keys from src/utils.rs: value.split(the colon).collect(). -/
def get_keys (v : String) : List String := (splitCols v.toList).map String.mk

/-! ## Redis state model -/

/-- State of the Redis database as used by src/cache.rs: string keys
holding entity values, sets holding index members, and the fields of
the single expiry hash (timestamps as absolute Nat milliseconds). -/
structure RedisState (α : Type) where
  kv : String → Option α
  sets : String → List String
  expiry : String → Option Nat

/-- Initial empty database. -/
def RedisState.empty {α : Type} : RedisState α :=
  ⟨fun _ => none, fun _ => [], fun _ => none⟩

/-- Redis SET of one key inside an MSET batch. -/
def kvSet {α : Type} (st : RedisState α) (k : String) (v : α) : RedisState α :=
  { st with kv := fun x => if x = k then some v else st.kv x }

/-- Redis DEL of one key. -/
def kvDel {α : Type} (st : RedisState α) (k : String) : RedisState α :=
  { st with kv := fun x => if x = k then none else st.kv x }

/-- Redis SADD of one member. -/
def sadd {α : Type} (st : RedisState α) (n m : String) : RedisState α :=
  { st with
    sets := fun x =>
      if x = n then (if m ∈ st.sets n then st.sets n else st.sets n ++ [m])
      else st.sets x }

/-- Redis SREM of one member. -/
def srem {α : Type} (st : RedisState α) (n m : String) : RedisState α :=
  { st with
    sets := fun x =>
      if x = n then (st.sets n).filter (fun y => y ≠ m) else st.sets x }

/-! ## Cache operations (src/cache.rs) -/

/-- Canonicalized written key: both set_all and del_all in src/cache.rs
rewrite a key whose colon-split has more than two parts and starts with
"channel" into channel:(parts[2]). -/
def canonKey (k : String) : String :=
  let parts := get_keys k
  if 2 < parts.length ∧ parts.getD 0 "" = CHANNEL_KEY then
    CHANNEL_KEY ++ ":" ++ parts.getD 2 ""
  else k

/-- Index-set insertions performed for one written key: the (set name,
member) pairs pushed into the members map of set_all in src/cache.rs.
The del_all function of src/cache.rs repeats the identical computation
for its SREM batch. -/
def memberEntries (k : String) : List (String × String) :=
  let parts := get_keys k
  let nk := canonKey k
  (if 1 < parts.length then [(parts.getD 0 "" ++ KEYS_SUFFIX, nk)] else []) ++
    (if 2 < parts.length then
      (if parts.getD 0 "" ≠ MESSAGE_KEY then
        [(GUILD_KEY ++ KEYS_SUFFIX ++ ":" ++ parts.getD 1 "", nk)]
      else
        [(CHANNEL_KEY ++ KEYS_SUFFIX ++ ":" ++ parts.getD 1 "", nk)])
    else [])

/-- set_all from src/cache.rs: canonicalize every key, MSET all pairs,
then SADD every index-set member recorded for the written keys.  Values
are kept abstract (serialization is a bijection onto the wire strings
and is out of scope). -/
def set_all {α : Type} (st : RedisState α) (kvs : List (String × α)) : RedisState α :=
  if kvs.isEmpty then st
  else
    let st1 := kvs.foldl (fun s p => kvSet s (canonKey p.1) p.2) st
    ((kvs.map fun p => memberEntries p.1).flatten).foldl
      (fun s e => sadd s e.1 e.2) st1

/-- set from src/cache.rs: set_all of a single pair. -/
def set {α : Type} (st : RedisState α) (k : String) (v : α) : RedisState α :=
  set_all st [(k, v)]

/-- del_all from src/cache.rs: canonicalize every key, DEL them all,
then SREM every index-set member recorded for the keys. -/
def del_all {α : Type} (st : RedisState α) (ks : List String) : RedisState α :=
  if ks.isEmpty then st
  else
    let st1 := ks.foldl (fun s k => kvDel s (canonKey k)) st
    ((ks.map memberEntries).flatten).foldl (fun s e => srem s e.1 e.2) st1

/-- del from src/cache.rs: del_all of a single key. -/
def del {α : Type} (st : RedisState α) (k : String) : RedisState α :=
  del_all st [k]

/-- expire_all from src/cache.rs: HSET each key of the expiry hash to
now plus the given ttl in milliseconds. -/
def expire_all {α : Type} (st : RedisState α) (now : Nat)
    (ks : List (String × Nat)) : RedisState α :=
  if ks.isEmpty then st
  else
    ks.foldl
      (fun s p =>
        { s with expiry := fun x => if x = p.1 then some (now + p.2) else s.expiry x })
      st

/-- Name of the per-guild index set guild_keys:(guild id), as formatted
by src/cache.rs. -/
def guildKeysSet (g : Nat) : String :=
  GUILD_KEY ++ KEYS_SUFFIX ++ ":" ++ toString g

/-- clear_guild from src/cache.rs: SMEMBERS of guild_keys:(id), del_all
of those members, read the guild record, then del it. -/
def clear_guild {α : Type} (st : RedisState α) (g : Nat) : RedisState α × Option α :=
  let members := st.sets (guildKeysSet g)
  let st1 := del_all st members
  let old := st1.kv (guild_key g)
  (del st1 (guild_key g), old)

/-! ## Events and the projection (src/cache.rs update) -/

/-- Text guild channel payload fields used by the projection. -/
structure TextChannel where
  id : Nat
  guild_id : Option Nat
deriving DecidableEq

/-- Guild channel payload: the GuildCreate branch of update only keeps
the Text variant, so all other GuildChannel variants are collapsed. -/
inductive GChannel
  | text (c : TextChannel)
  | other (id : Nat)
deriving DecidableEq

/-- Role payload fields used by the projection. -/
structure GRole where
  id : Nat
deriving DecidableEq

/-- Member payload fields used by the projection (user.id). -/
structure GMember where
  user_id : Nat
deriving DecidableEq

/-- Guild payload fields used by the GuildCreate branch of update. -/
structure Guild where
  id : Nat
  channels : List GChannel
  roles : List GRole
  members : List GMember
deriving DecidableEq

/-- GuildItem from src/cache.rs usage: the tagged union written during
GuildCreate batching. -/
inductive GuildItem
  | channel (c : GChannel)
  | role (r : GRole)
  | member (m : GMember)
  | guild (g : Guild)
deriving DecidableEq

/-- Configuration options read by the embedded functions. -/
structure Config where
  state_member : Bool
  state_member_ttl : Option Nat
  shards_total : Nat
  shards_start : Nat
  shards_end : Nat
  clusters : Nat
  resume : Bool
deriving DecidableEq

/-- Gateway events covered by the claims about update. -/
inductive Event
  | guildCreate (g : Guild)
  | guildDelete (g : Nat)
deriving DecidableEq

/-- update from src/cache.rs, restricted to the event kinds the claims
quantify over.  The GuildCreate branch first cascade-deletes the guild,
then drains channels (keeping text channels stamped with the guild id),
roles and members (kept when member caching is on or the member is the
bot user) into one batch together with the drained guild record, writes
the batch with one set_all, and finally sets per-member expiry entries
when member caching and a ttl are both configured. -/
def update (cfg : Config) (bot_id now : Nat) (st : RedisState GuildItem)
    (e : Event) : RedisState GuildItem × Option GuildItem :=
  match e with
  | .guildCreate data =>
    let cleared := clear_guild st data.id
    let items : List (String × GuildItem) :=
      data.channels.foldl
        (fun acc c =>
          match c with
          | .text tc =>
            acc ++ [(channel_key data.id tc.id,
              GuildItem.channel (.text { tc with guild_id := some data.id }))]
          | .other _ => acc)
        []
    let items :=
      data.roles.foldl
        (fun acc r => acc ++ [(role_key data.id r.id, GuildItem.role r)]) items
    let items :=
      data.members.foldl
        (fun acc m =>
          if cfg.state_member || m.user_id == bot_id then
            acc ++ [(member_key data.id m.user_id, GuildItem.member m)]
          else acc)
        items
    let items :=
      items ++ [(guild_key data.id,
        GuildItem.guild { data with channels := [], roles := [], members := [] })]
    let st1 := set_all cleared.1 items
    let st2 :=
      match cfg.state_member_ttl.filter (fun _ => cfg.state_member) with
      | some ttl =>
        expire_all st1 now
          (data.members.map fun m => (member_key data.id m.user_id, ttl))
      | none => st1
    (st2, cleared.2)
  | .guildDelete g => clear_guild st g

/-- The batch of writes that the GuildCreate claim describes: the text
channels of the payload stamped with the guild id, the roles, the
members kept by the caching condition, and the guild record with the
drained lists, in this order. -/
def gcItems (cfg : Config) (bot : Nat) (g : Guild) : List (String × GuildItem) :=
  (g.channels.filterMap fun c =>
    match c with
    | .text tc =>
      some (channel_key g.id tc.id,
        GuildItem.channel (.text { tc with guild_id := some g.id }))
    | .other _ => none) ++
  (g.roles.map fun r => (role_key g.id r.id, GuildItem.role r)) ++
  ((g.members.filter fun m => cfg.state_member || m.user_id == bot).map
    fun m => (member_key g.id m.user_id, GuildItem.member m)) ++
  [(guild_key g.id,
    GuildItem.guild { g with channels := [], roles := [], members := [] })]

/-- The shared key-parsing rule as the spec states it: splitting the
written key k on the colon into parts, the member recorded in index set
n is the canonicalized key; the touched sets are parts[0] ++ _keys when
there is more than one part, and guild_keys:(parts[1]) when there are
more than two parts and parts[0] is not "message", channel_keys:(parts[1])
otherwise. -/
def specIndexRule (k n m : String) : Prop :=
  let parts := get_keys k
  m = canonKey k ∧
    ((n = parts.getD 0 "" ++ KEYS_SUFFIX ∧ 1 < parts.length) ∨
     (n = GUILD_KEY ++ KEYS_SUFFIX ++ ":" ++ parts.getD 1 "" ∧ 2 < parts.length ∧
        parts.getD 0 "" ≠ MESSAGE_KEY) ∨
     (n = CHANNEL_KEY ++ KEYS_SUFFIX ++ ":" ++ parts.getD 1 "" ∧ 2 < parts.length ∧
        parts.getD 0 "" = MESSAGE_KEY))

/-! ## Raw payload publishing (src/handler.rs outgoing, src/models.rs) -/

/-- Opaque JSON value for the d and data fields of wire payloads; null
is the value that simd_json Value::default() produces. -/
inductive JsonVal
  | null
  | num (n : Nat)
  | str (s : String)
deriving DecidableEq

instance : Inhabited JsonVal := ⟨.null⟩

/-- PayloadInfo from src/models.rs: the struct the raw shard payload is
decoded into, holding only op, t and d. -/
structure PayloadInfo where
  op : Nat
  t : Option String
  d : JsonVal
deriving DecidableEq

/-- Structured content of the raw gateway payload bytes: op, an
optional sequence number s, an optional event type t and the data d.
A malformed byte sequence is modelled as the absence of such content. -/
structure RawPayload where
  op : Nat
  s : Option Nat
  t : Option String
  d : JsonVal
deriving DecidableEq

/-- Deserializing raw payload bytes into PayloadInfo keeps only the op,
t and d fields declared by the struct in src/models.rs; the s field is
dropped. -/
def payloadInfoOfRaw (r : RawPayload) : PayloadInfo := ⟨r.op, r.t, r.d⟩

/-- Observable effects of the ShardPayload branch of outgoing in
src/handler.rs: counter increments of gateway_events (event type and
shard labels) and publishes (exchange, routing key, body). -/
structure PayloadEffects where
  counterIncs : List (String × Nat)
  publishes : List (String × String × PayloadInfo)
deriving DecidableEq

/-- ShardPayload branch of outgoing in src/handler.rs: on a decoded
payload whose t is present, increment the gateway_events counter and,
when re-serialization succeeds, publish the payload once to the gateway
exchange with the event type as routing key; every failure is only
logged. -/
def outgoingShardPayload (shard : Nat) (decoded : Option PayloadInfo)
    (serOk : Bool) : PayloadEffects :=
  match decoded with
  | none => ⟨[], []⟩
  | some p =>
    match p.t with
    | none => ⟨[], []⟩
    | some kind => ⟨[(kind, shard)], if serOk then [(EXCHANGE, kind, p)] else []⟩

/-! ## Command router (src/handler.rs incoming, src/models.rs) -/

/-- DeliveryOpcode from src/models.rs. -/
inductive DeliveryOpcode
  | send
  | reconnect
deriving DecidableEq

/-- DeliveryInfo from src/models.rs: op, shard and optional data. -/
structure DeliveryInfo where
  op : DeliveryOpcode
  shard : Nat
  data : Option JsonVal
deriving DecidableEq

/-- Model of one cluster for the router: the set of shard ids for which
cluster.shard(id) is some. -/
structure ClusterModel where
  shards : List Nat
deriving DecidableEq

/-- Observable actions of the command router for one delivery. -/
inductive RouterAction
  | ack
  | commandTo (cluster : Nat) (shard : Nat) (data : JsonVal)
  | shutdownShard (cluster : Nat) (shard : Nat)
  | warnInvalidShard (shard : Nat)
  | warnDecode
deriving DecidableEq

/-- Actions that invoke a cluster. -/
def isClusterAction : RouterAction → Bool
  | .commandTo _ _ _ => true
  | .shutdownShard _ _ => true
  | _ => false

/-- Per-delivery body of incoming in src/handler.rs: ack first, then
decode; on success find the first cluster owning the shard and either
forward the data (Send, defaulting to null) or shut the shard down
(Reconnect); otherwise log a warning. -/
def processDelivery (clusters : List ClusterModel)
    (decoded : Option DeliveryInfo) : List RouterAction :=
  RouterAction.ack ::
    match decoded with
    | none => [.warnDecode]
    | some p =>
      match clusters.findIdx? (fun c => c.shards.contains p.shard) with
      | some ci =>
        match p.op with
        | .send => [.commandTo ci p.shard (p.data.getD .null)]
        | .reconnect => [.shutdownShard ci p.shard]
      | none => [.warnInvalidShard p.shard]

/-- Consumer loop of incoming in src/handler.rs over a finite prefix of
deliveries (none marks a delivery whose body does not decode). -/
def incoming (clusters : List ClusterModel)
    (deliveries : List (Option DeliveryInfo)) : List RouterAction :=
  (deliveries.map (processDelivery clusters)).flatten

/-! ## Admission queue (src/utils.rs) -/

/-- Bucket selection of LargeBotQueue::request in src/utils.rs:
shard_id[0] modulo the number of buckets. -/
def requestBucket (shard_id buckets : Nat) : Nat := shard_id % buckets

/-- Completion mode of an admission request. -/
inductive AdmissionCompletion
  | immediateSkip
  | afterRelease
deriving DecidableEq

/-- LocalQueue::request from src/utils.rs with the channel operations
made explicit: when enqueueing the oneshot sender fails the request
logs a warning and completes immediately; otherwise it waits for the
release and ignores the result of the await. -/
def localQueueRequest (sendResult : Except Unit Unit)
    (recvResult : Except Unit Unit) : AdmissionCompletion :=
  match sendResult with
  | .error _ => .immediateSkip
  | .ok _ =>
    match recvResult with
    | _ => .afterRelease

/-- LargeBotQueue::request from src/utils.rs: choose the bucket from
the shard id, then behave like the single-bucket request on the
channel of that bucket. -/
def largeBotQueueRequest (sendResult : Nat → Except Unit Unit)
    (recvResult : Except Unit Unit) (shard_id buckets : Nat) : AdmissionCompletion :=
  let bucket := requestBucket shard_id buckets
  match sendResult bucket with
  | .error _ => .immediateSkip
  | .ok _ =>
    match recvResult with
    | _ => .afterRelease

/-- Timed model of the waiter loop in src/utils.rs.  WaiterRun d clock
arrivals releases holds when the releases can be produced by the loop:
starting with the pacer ready at time clock, each enqueued waiter is
released at a time no earlier than both the pacer clock and its arrival
time, and after a release the pacer sleeps, becoming ready again only
wait_duration d after the release. -/
inductive WaiterRun (d : Nat) : Nat → List Nat → List Nat → Prop
  | nil (clock : Nat) : WaiterRun d clock [] []
  | step (clock a r : Nat) (arr rel : List Nat) :
      clock ≤ r → a ≤ r → WaiterRun d (r + d) arr rel →
      WaiterRun d clock (a :: arr) (r :: rel)

/-! ## Cluster partitioning and resume gating (src/utils.rs) -/

/-- get_shards from src/utils.rs: the number of owned shards. -/
def get_shards (c : Config) : Nat := c.shards_end - c.shards_start + 1

/-- Shard ranges that get_clusters in src/utils.rs builds one cluster
from: the loop keeps a running lower bound last_index starting at
shards_start and, for each of the clusters iterations, emits the range
from last_index to last_index + base (when i is below owned mod
clusters) or last_index + base - 1 (otherwise). -/
def get_clusters (c : Config) : List (Nat × Nat) :=
  let shards := get_shards c
  let base := shards / c.clusters
  let extra := shards % c.clusters
  ((List.range c.clusters).foldl
    (fun (st : List (Nat × Nat) × Nat) i =>
      let last := st.2
      let index := if i < extra then last + base else last + base - 1
      (st.1 ++ [(last, index)], index + 1))
    ([], c.shards_start)).1

/-- Recursive form of the ranges emitted by the get_clusters loop,
consuming the count of extra-shard clusters first. -/
def rangesFrom (base : Nat) : Nat → Nat → Nat → List (Nat × Nat)
  | _, _, 0 => []
  | last, e + 1, n + 1 => (last, last + base) :: rangesFrom base (last + base + 1) e n
  | last, 0, n + 1 => (last, last + base - 1) :: rangesFrom base (last + base) 0 n

/-- SessionInfo from src/models.rs. -/
structure SessionInfo where
  session_id : String
  sequence : Nat
deriving DecidableEq

/-- ResumeSession built by get_resume_sessions in src/utils.rs. -/
structure ResumeSession where
  session_id : String
  sequence : Nat
deriving DecidableEq

/-- Largest value representable in a u64. -/
def U64_MAX : Nat := 18446744073709551615

/-- Decimal parse with the semantics of u64::from_str used by
src/utils.rs: an optional leading plus sign followed by one or more
ascii digits, rejected when the denoted value exceeds the 64-bit range
(from_str fails with an overflow error there; checking the final value
against the bound detects exactly the same strings as the per-digit
checked arithmetic of the source). -/
def parse_u64 (s : String) : Option Nat :=
  let ds :=
    match s.toList with
    | '+' :: t => t
    | l => l
  if ds ≠ [] ∧ ds.all Char.isDigit then
    let n := ds.foldl (fun n c => n * 10 + (c.toNat - '0'.toNat)) 0
    if n ≤ U64_MAX then some n else none
  else none

/-- Collecting map that panics (none) as soon as one element fails,
modelling an iterator map with an unwrap inside collected into a
container. -/
def mapOrPanic {β γ : Type} (f : β → Option γ) : List β → Option (List γ)
  | [] => some []
  | x :: t =>
    match f x, mapOrPanic f t with
    | some y, some ys => some (y :: ys)
    | _, _ => none

/-- get_resume_sessions from src/utils.rs with the two Redis reads
supplied as inputs: the value stored at gateway_shards (absent reads as
the default 0) and the map stored at gateway_sessions.  The returned
none models the panic of the unwrap on a session key that does not
parse as u64. -/
def get_resume_sessions (cfg : Config) (stored_shards : Option Nat)
    (stored_sessions : Option (List (String × SessionInfo))) :
    Option (List (Nat × ResumeSession)) :=
  let shards := stored_shards.getD 0
  if shards ≠ cfg.shards_total ∨ cfg.resume = false then some []
  else
    mapOrPanic
      (fun p => (parse_u64 p.1).map fun n => (n, ⟨p.2.session_id, p.2.sequence⟩))
      (stored_sessions.getD [])

/-! ## Theorems -/

/-- C1: evaluation of the projection at the failing input.  A guild
with one text channel is created and then deleted; the claim requires
guild_keys:7 to end up empty and the channel key to be gone from every
index set it was added to, but the canonicalized member channel:11 has
only two colon-separated parts at deletion time, so del_all never
removes it from guild_keys:7 and the set survives non-empty. -/
theorem guildDelete_leaves_channel_entry :
    (let cfg : Config := ⟨false, none, 1, 0, 0, 1, false⟩
     let st1 := (update cfg 0 0 RedisState.empty
       (.guildCreate ⟨7, [.text ⟨11, none⟩], [], []⟩)).1
     let st2 := (update cfg 0 0 st1 (.guildDelete 7)).1
     st2.kv (guild_key 7) = none ∧
       st2.kv (channel_key 7 11) = none ∧
       st2.kv "channel:11" = none ∧
       st2.sets "channel_keys" = [] ∧
       st2.sets (guildKeysSet 7) = ["channel:11"]) := by
  decide

/-- C8: an admission request whose enqueue onto the pacer channel fails
completes immediately, and no request outcome is ever an error: the
request functions are total into the completion type, the failure of
the enqueue selects the immediate completion, and a successful enqueue
waits for the release whatever the await returns. -/
theorem request_soft_fail :
    (∀ r, localQueueRequest (Except.error ()) r = .immediateSkip) ∧
    (∀ r, localQueueRequest (Except.ok ()) r = .afterRelease) ∧
    (∀ (f : Nat → Except Unit Unit) r s K,
        f (requestBucket s K) = Except.error () →
          largeBotQueueRequest f r s K = .immediateSkip) ∧
    (∀ (f : Nat → Except Unit Unit) r s K,
        f (requestBucket s K) = Except.ok () →
          largeBotQueueRequest f r s K = .afterRelease) ∧
    (∀ sr r, localQueueRequest sr r = .immediateSkip ∨
        localQueueRequest sr r = .afterRelease) := by
  refine ⟨fun r => rfl, fun r => rfl, ?_, ?_, ?_⟩
  · intro f r s K h
    simp [largeBotQueueRequest, h]
  · intro f r s K h
    simp [largeBotQueueRequest, h]
  · intro sr r
    cases sr with
    | error e => exact Or.inl rfl
    | ok v => exact Or.inr rfl

/-- Witness for C8 at concrete inputs. -/
theorem request_soft_fail_witness :
    ((fun _ : Nat => (Except.error () : Except Unit Unit)) (requestBucket 5 2) =
        Except.error ()) ∧
    largeBotQueueRequest (fun _ => Except.error ()) (Except.ok ()) 5 2 = .immediateSkip ∧
    largeBotQueueRequest (fun _ => Except.ok ()) (Except.error ()) 5 2 = .afterRelease :=
  ⟨rfl,
   request_soft_fail.2.2.1 (fun _ => Except.error ()) (Except.ok ()) 5 2 rfl,
   request_soft_fail.2.2.2.1 (fun _ => Except.ok ()) (Except.error ()) 5 2 rfl⟩

/-- C4: for a raw shard payload, when the bytes decode and carry an
event type t, the gateway_events counter labelled with t and the shard
is incremented once and the payload re-serialized as op, t, d (the s
field dropped by the PayloadInfo struct) is published once to the
gateway exchange with routing key t; when t is absent, or the bytes do
not decode, or re-serialization fails, nothing is published. -/
theorem shardPayload_publish (shard : Nat) (wire : Option RawPayload) (serOk : Bool) :
    (∀ r kind, wire = some r → r.t = some kind →
        outgoingShardPayload shard (wire.map payloadInfoOfRaw) serOk =
          ⟨[(kind, shard)],
            if serOk then [(EXCHANGE, kind, ⟨r.op, r.t, r.d⟩)] else []⟩) ∧
    (wire = none →
        outgoingShardPayload shard (wire.map payloadInfoOfRaw) serOk = ⟨[], []⟩) ∧
    (∀ r, wire = some r → r.t = none →
        outgoingShardPayload shard (wire.map payloadInfoOfRaw) serOk = ⟨[], []⟩) := by
  refine ⟨?_, ?_, ?_⟩
  · rintro r kind rfl ht
    simp [outgoingShardPayload, payloadInfoOfRaw, ht]
  · rintro rfl
    rfl
  · rintro r rfl ht
    simp [outgoingShardPayload, payloadInfoOfRaw, ht]

/-- Witness for C4 at the concrete MESSAGE_CREATE scenario of the
spec: a decoded payload with a sequence number s that is dropped. -/
theorem shardPayload_publish_witness :
    ((some (⟨0, some 42, some "MESSAGE_CREATE", .null⟩ : RawPayload)) =
        some ⟨0, some 42, some "MESSAGE_CREATE", .null⟩ ∧
      (⟨0, some 42, some "MESSAGE_CREATE", .null⟩ : RawPayload).t =
        some "MESSAGE_CREATE") ∧
    outgoingShardPayload 5
        ((some (⟨0, some 42, some "MESSAGE_CREATE", .null⟩ : RawPayload)).map
          payloadInfoOfRaw) true =
      ⟨[("MESSAGE_CREATE", 5)],
        [(EXCHANGE, "MESSAGE_CREATE", ⟨0, some "MESSAGE_CREATE", .null⟩)]⟩ := by
  refine ⟨⟨rfl, rfl⟩, ?_⟩
  have h := (shardPayload_publish 5
    (some ⟨0, some 42, some "MESSAGE_CREATE", .null⟩) true).1
    ⟨0, some 42, some "MESSAGE_CREATE", .null⟩ "MESSAGE_CREATE" rfl rfl
  simpa using h

/-- C9: every consumed delivery is acknowledged first; a decoded
delivery whose shard some cluster owns is dispatched to the first such
cluster, forwarding the data (null when absent) for Send and shutting
the shard down for Reconnect; a delivery whose shard no cluster owns
only produces a warning, a delivery that does not decode only produces
a warning, and in both cases no cluster is invoked; the router
processes every delivery of the stream. -/
theorem command_routing (clusters : List ClusterModel) (d : Option DeliveryInfo)
    (ds1 ds2 : List (Option DeliveryInfo)) :
    ((processDelivery clusters d).head? = some .ack) ∧
    (processDelivery clusters none = [.ack, .warnDecode]) ∧
    (∀ p, d = some p →
        clusters.findIdx? (fun c => c.shards.contains p.shard) = none →
          processDelivery clusters d = [.ack, .warnInvalidShard p.shard]) ∧
    (∀ p ci, d = some p →
        clusters.findIdx? (fun c => c.shards.contains p.shard) = some ci →
          processDelivery clusters d =
            [.ack,
              match p.op with
              | .send => .commandTo ci p.shard (p.data.getD .null)
              | .reconnect => .shutdownShard ci p.shard]) ∧
    (∀ p, d = some p →
        clusters.findIdx? (fun c => c.shards.contains p.shard) = none →
          ∀ a ∈ processDelivery clusters d, isClusterAction a = false) ∧
    (∀ a ∈ processDelivery clusters none, isClusterAction a = false) ∧
    (incoming clusters (ds1 ++ ds2) = incoming clusters ds1 ++ incoming clusters ds2) := by
  refine ⟨rfl, rfl, ?_, ?_, ?_, ?_, ?_⟩
  · rintro p rfl hf
    simp only [processDelivery]
    rw [hf]
  · rintro p ci rfl hf
    simp only [processDelivery]
    rw [hf]
    cases p.op <;> rfl
  · rintro p rfl hf a ha
    simp only [processDelivery] at ha
    rw [hf] at ha
    simp only [List.mem_cons, List.mem_singleton, List.not_mem_nil, or_false] at ha
    rcases ha with rfl | rfl <;> rfl
  · intro a ha
    simp only [processDelivery] at ha
    simp only [List.mem_cons, List.mem_singleton, List.not_mem_nil, or_false] at ha
    rcases ha with rfl | rfl <;> rfl
  · simp [incoming]

/-- Witness for C9: a Reconnect delivery for shard 2 is routed to the
second cluster, which owns it. -/
theorem command_routing_witness :
    ((some (⟨.reconnect, 2, none⟩ : DeliveryInfo)) = some ⟨.reconnect, 2, none⟩ ∧
      ([⟨[0, 1]⟩, ⟨[2, 3]⟩] : List ClusterModel).findIdx?
        (fun c => c.shards.contains (2 : Nat)) = some 1) ∧
    processDelivery [⟨[0, 1]⟩, ⟨[2, 3]⟩] (some ⟨.reconnect, 2, none⟩) =
      [.ack, .shutdownShard 1 2] := by
  refine ⟨⟨rfl, by decide⟩, ?_⟩
  have h := (command_routing [⟨[0, 1]⟩, ⟨[2, 3]⟩] (some ⟨.reconnect, 2, none⟩)
    [] []).2.2.2.1 ⟨.reconnect, 2, none⟩ 1 rfl (by decide)
  simpa using h

/-- The collecting map succeeds when the function succeeds on every
element. -/
theorem mapOrPanic_isSome {β γ : Type} (f : β → Option γ) (l : List β)
    (h : ∀ x ∈ l, (f x).isSome) : (mapOrPanic f l).isSome := by
  induction l with
  | nil => rfl
  | cons x t ih =>
    have hx := h x (List.mem_cons_self x t)
    rcases Option.isSome_iff_exists.mp hx with ⟨y, hy⟩
    have ht := ih fun z hz => h z (List.mem_cons_of_mem x hz)
    rcases Option.isSome_iff_exists.mp ht with ⟨ys, hys⟩
    simp [mapOrPanic, hy, hys]

/-- The collecting map computes the pointwise map when the function
succeeds with the given value on every element. -/
theorem mapOrPanic_eq_some_map {β γ : Type} (f : β → Option γ) (g : β → γ)
    (l : List β) (h : ∀ x ∈ l, f x = some (g x)) :
    mapOrPanic f l = some (l.map g) := by
  induction l with
  | nil => rfl
  | cons x t ih =>
    have hx := h x (List.mem_cons_self x t)
    have ht := ih fun z hz => h z (List.mem_cons_of_mem x hz)
    simp [mapOrPanic, hx, ht]

/-- C10: get_resume_sessions is total when every stored session key
parses as a decimal u64, and panics (modelled as none) on a session map
that contains a non-numeric shard-id key even though the resume gate
passes. -/
theorem resume_sessions_parse_panic :
    (∀ (cfg : Config) (ss : Option Nat) (sess : Option (List (String × SessionInfo))),
        (∀ p ∈ sess.getD [], (parse_u64 p.1).isSome) →
          (get_resume_sessions cfg ss sess).isSome) ∧
    get_resume_sessions ⟨false, none, 4, 0, 3, 1, true⟩ (some 4)
        (some [("abc", ⟨"sid", 1⟩)]) = none := by
  constructor
  · intro cfg ss sess h
    simp only [get_resume_sessions]
    split
    · rfl
    · exact mapOrPanic_isSome _ _ fun p hp => by
        have := h p hp
        simpa [Option.isSome_map] using this
  · decide

/-- Witness for C10: with every key numeric the function returns a
value. -/
theorem resume_sessions_parse_panic_witness :
    (∀ p ∈ ((some [("7", ⟨"sid", 9⟩)] :
        Option (List (String × SessionInfo))).getD []), (parse_u64 p.1).isSome) ∧
    (get_resume_sessions ⟨false, none, 4, 0, 3, 1, true⟩ (some 4)
        (some [("7", ⟨"sid", 9⟩)])).isSome :=
  ⟨by decide,
   resume_sessions_parse_panic.1 ⟨false, none, 4, 0, 3, 1, true⟩ (some 4)
     (some [("7", ⟨"sid", 9⟩)]) (by decide)⟩

/-- C6 counterexample: the claim says an absent gateway_shards always
yields the empty map, but the code reads the absent value as the
default 0, so a configuration with shards_total 0 and resume enabled
passes the gate and the stored session map is returned. -/
theorem resume_gating_absent_counterexample :
    get_resume_sessions ⟨false, none, 0, 0, 0, 1, true⟩ none
        (some [("0", ⟨"sid", 42⟩)]) ≠ some [] := by
  decide

/-- C6 (amended): the stored gateway_shards value is read with default
0; the stored session map (with parsed keys) is returned exactly when
that value equals the configured shards_total and resume is enabled and
every stored key parses, and in every other gate outcome the empty map
is returned. -/
theorem resume_sessions_gating (cfg : Config) (ss : Option Nat)
    (sess : Option (List (String × SessionInfo))) :
    (¬ (ss.getD 0 = cfg.shards_total ∧ cfg.resume = true) →
        get_resume_sessions cfg ss sess = some []) ∧
    ((ss.getD 0 = cfg.shards_total ∧ cfg.resume = true) →
      (∀ p ∈ sess.getD [], (parse_u64 p.1).isSome) →
        get_resume_sessions cfg ss sess =
          some ((sess.getD []).map fun p =>
            ((parse_u64 p.1).getD 0, ⟨p.2.session_id, p.2.sequence⟩))) := by
  constructor
  · intro h
    have hcond : ss.getD 0 ≠ cfg.shards_total ∨ cfg.resume = false := by
      by_cases h1 : ss.getD 0 = cfg.shards_total
      · by_cases h2 : cfg.resume = true
        · exact absurd ⟨h1, h2⟩ h
        · exact Or.inr (by simpa using h2)
      · exact Or.inl h1
    simp only [get_resume_sessions]
    rw [if_pos hcond]
  · rintro ⟨h1, h2⟩ hp
    simp only [get_resume_sessions]
    rw [if_neg (by simp [h1, h2])]
    refine mapOrPanic_eq_some_map _ _ _ fun p hmem => ?_
    rcases Option.isSome_iff_exists.mp (hp p hmem) with ⟨n, hn⟩
    simp [hn]

/-- Witness for C6 at a passing gate with a parseable key. -/
theorem resume_sessions_gating_witness :
    (((some 4 : Option Nat).getD 0 = (4 : Nat) ∧ true = true) ∧
      (∀ p ∈ ((some [("7", ⟨"sid", 9⟩)] :
          Option (List (String × SessionInfo))).getD []), (parse_u64 p.1).isSome)) ∧
    get_resume_sessions ⟨false, none, 4, 0, 3, 1, true⟩ (some 4)
        (some [("7", ⟨"sid", 9⟩)]) = some [(7, ⟨"sid", 9⟩)] := by
  refine ⟨⟨⟨rfl, rfl⟩, by decide⟩, ?_⟩
  have h := (resume_sessions_gating ⟨false, none, 4, 0, 3, 1, true⟩ (some 4)
    (some [("7", ⟨"sid", 9⟩)])).2 ⟨rfl, rfl⟩ (by decide)
  exact h.trans (by decide)

/-- A waiter run produces one release per enqueued request. -/
theorem waiterRun_length {d clock : Nat} {arr rel : List Nat}
    (h : WaiterRun d clock arr rel) : rel.length = arr.length := by
  induction h with
  | nil => rfl
  | step clk a r arr rel hcr har hrest ih => simp [ih]

/-- The first release of a waiter run is not earlier than the pacer
clock. -/
theorem waiterRun_clock_le_head {d clock : Nat} {arr rel : List Nat}
    (h : WaiterRun d clock arr rel) :
    ∀ h0 : 0 < rel.length, clock ≤ rel[0] := by
  cases h with
  | nil => intro h0; exact absurd h0 (by simp)
  | step clk a r arr rel hcr har hrest => intro h0; simpa using hcr

/-- Releases are not earlier than the matching arrivals. -/
theorem waiterRun_arrival {d clock : Nat} {arr rel : List Nat}
    (h : WaiterRun d clock arr rel) :
    ∀ i (h1 : i < arr.length) (h2 : i < rel.length), arr[i] ≤ rel[i] := by
  induction h with
  | nil => intro i h1 h2; exact absurd h1 (by simp)
  | step clk a r arr rel hcr har hrest ih =>
    intro i h1 h2
    cases i with
    | zero => simpa using har
    | succ j => simpa using ih j (by simpa using h1) (by simpa using h2)

/-- Consecutive releases of a waiter run are at least the pacing
duration apart. -/
theorem waiterRun_gap {d clock : Nat} {arr rel : List Nat}
    (h : WaiterRun d clock arr rel) :
    ∀ i (h1 : i < rel.length) (h2 : i + 1 < rel.length), rel[i] + d ≤ rel[i + 1] := by
  induction h with
  | nil => intro i h1 h2; exact absurd h1 (by simp)
  | step clk a r arr rel hcr har hrest ih =>
    intro i h1 h2
    cases i with
    | zero =>
      have hlen : 0 < rel.length := by simpa using h2
      have hhead := waiterRun_clock_le_head hrest hlen
      simpa using hhead
    | succ j =>
      have hj1 : j < rel.length := by simpa using Nat.lt_of_succ_lt h2
      have hj2 : j + 1 < rel.length := by simpa using h2
      simpa using ih j hj1 hj2

/-- C7: a request with shard id s on a queue of K buckets is enqueued
on bucket s mod K, every timed execution of a bucket pacer releases its
waiters in enqueue order no earlier than they arrive, and consecutive
releases of the same bucket are at least the wait duration apart. -/
theorem waiter_pacing (d clock s K : Nat) (arr rel : List Nat)
    (h : WaiterRun d clock arr rel) :
    requestBucket s K = s % K ∧
    rel.length = arr.length ∧
    (∀ i (h1 : i < arr.length) (h2 : i < rel.length), arr[i] ≤ rel[i]) ∧
    (∀ i (h1 : i < rel.length) (h2 : i + 1 < rel.length), rel[i] + d ≤ rel[i + 1]) :=
  ⟨rfl, waiterRun_length h, waiterRun_arrival h, waiterRun_gap h⟩

/-- Witness for C7: a two-request run with wait duration 5, releasing
at times 0 and 5. -/
theorem waiter_pacing_witness :
    WaiterRun 5 0 [0, 0] [0, 5] ∧
    (requestBucket 7 3 = 7 % 3 ∧
      ([0, 5] : List Nat).length = ([0, 0] : List Nat).length ∧
      (∀ i (h1 : i < ([0, 0] : List Nat).length) (h2 : i < ([0, 5] : List Nat).length),
          ([0, 0] : List Nat)[i] ≤ ([0, 5] : List Nat)[i]) ∧
      (∀ i (h1 : i < ([0, 5] : List Nat).length) (h2 : i + 1 < ([0, 5] : List Nat).length),
          ([0, 5] : List Nat)[i] + 5 ≤ ([0, 5] : List Nat)[i + 1])) := by
  have hrun : WaiterRun 5 0 [0, 0] [0, 5] :=
    .step 0 0 0 [0] [5] (Nat.le_refl 0) (Nat.le_refl 0)
      (.step 5 0 5 [] [] (Nat.le_refl 5) (Nat.zero_le 5) (.nil 10))
  exact ⟨hrun, waiter_pacing 5 0 7 3 [0, 0] [0, 5] hrun⟩

/-- MSET steps do not change the sets component of the state. -/
theorem sets_foldl_kvSet {α : Type} (kvs : List (String × α)) (st : RedisState α) :
    (kvs.foldl (fun s p => kvSet s (canonKey p.1) p.2) st).sets = st.sets := by
  induction kvs generalizing st with
  | nil => rfl
  | cons p t ih => rw [List.foldl_cons, ih]; rfl

/-- DEL steps do not change the sets component of the state. -/
theorem sets_foldl_kvDel {α : Type} (ks : List String) (st : RedisState α) :
    (ks.foldl (fun s k => kvDel s (canonKey k)) st).sets = st.sets := by
  induction ks generalizing st with
  | nil => rfl
  | cons k t ih => rw [List.foldl_cons, ih]; rfl

/-- Membership after a single SADD. -/
theorem mem_sadd {α : Type} (st : RedisState α) (a b n m : String) :
    m ∈ (sadd st a b).sets n ↔ m ∈ st.sets n ∨ (n = a ∧ m = b) := by
  have hs : (sadd st a b).sets n =
      if n = a then (if b ∈ st.sets a then st.sets a else st.sets a ++ [b])
      else st.sets n := rfl
  rw [hs]
  by_cases hn : n = a
  · subst hn
    rw [if_pos rfl]
    by_cases hb : b ∈ st.sets n
    · rw [if_pos hb]
      constructor
      · exact fun h => Or.inl h
      · rintro (h | ⟨-, rfl⟩)
        · exact h
        · exact hb
    · rw [if_neg hb]
      simp only [List.mem_append, List.mem_singleton]
      tauto
  · rw [if_neg hn]
    simp [hn]

/-- Membership after a batch of SADDs. -/
theorem mem_foldl_sadd {α : Type} (entries : List (String × String))
    (st : RedisState α) (n m : String) :
    m ∈ ((entries.foldl (fun s e => sadd s e.1 e.2) st).sets n) ↔
      m ∈ st.sets n ∨ (n, m) ∈ entries := by
  induction entries generalizing st with
  | nil => simp
  | cons e t ih =>
    rw [List.foldl_cons, ih, mem_sadd]
    simp only [List.mem_cons, Prod.ext_iff]
    tauto

/-- Membership after a single SREM. -/
theorem mem_srem {α : Type} (st : RedisState α) (a b n m : String) :
    m ∈ (srem st a b).sets n ↔ m ∈ st.sets n ∧ ¬(n = a ∧ m = b) := by
  have hs : (srem st a b).sets n =
      if n = a then (st.sets a).filter (fun y => y ≠ b) else st.sets n := rfl
  rw [hs]
  by_cases hn : n = a
  · subst hn
    rw [if_pos rfl]
    simp [List.mem_filter]
  · rw [if_neg hn]
    simp [hn]

/-- Membership after a batch of SREMs. -/
theorem mem_foldl_srem {α : Type} (entries : List (String × String))
    (st : RedisState α) (n m : String) :
    m ∈ ((entries.foldl (fun s e => srem s e.1 e.2) st).sets n) ↔
      m ∈ st.sets n ∧ (n, m) ∉ entries := by
  induction entries generalizing st with
  | nil => simp
  | cons e t ih =>
    rw [List.foldl_cons, ih, mem_srem]
    simp only [List.mem_cons, Prod.ext_iff]
    tauto

/-- Index-set membership after set_all. -/
theorem sets_set_all {α : Type} (st : RedisState α) (kvs : List (String × α))
    (n m : String) :
    m ∈ (set_all st kvs).sets n ↔
      m ∈ st.sets n ∨ (n, m) ∈ (kvs.map fun p => memberEntries p.1).flatten := by
  by_cases hk : kvs.isEmpty
  · rw [List.isEmpty_iff] at hk
    subst hk
    simp [set_all]
  · simp only [set_all, if_neg hk]
    rw [mem_foldl_sadd, sets_foldl_kvSet]

/-- Index-set membership after del_all. -/
theorem sets_del_all {α : Type} (st : RedisState α) (ks : List String)
    (n m : String) :
    m ∈ (del_all st ks).sets n ↔
      m ∈ st.sets n ∧ (n, m) ∉ (ks.map memberEntries).flatten := by
  by_cases hk : ks.isEmpty
  · rw [List.isEmpty_iff] at hk
    subst hk
    simp [del_all]
  · simp only [del_all, if_neg hk]
    rw [mem_foldl_srem, sets_foldl_kvDel]

/-- An MSET batch stores every value under the canonicalized key,
later pairs overwriting earlier ones. -/
theorem kv_foldl_kvSet {α : Type} (kvs : List (String × α)) (st : RedisState α)
    (q : String) :
    (kvs.foldl (fun s p => kvSet s (canonKey p.1) p.2) st).kv q =
      kvs.foldl (fun acc p => if q = canonKey p.1 then some p.2 else acc) (st.kv q) := by
  induction kvs generalizing st with
  | nil => rfl
  | cons p t ih =>
    rw [List.foldl_cons, List.foldl_cons, ih]
    rfl

/-- SADD batches do not change the string keys. -/
theorem kv_foldl_sadd {α : Type} (entries : List (String × String))
    (st : RedisState α) :
    (entries.foldl (fun s e => sadd s e.1 e.2) st).kv = st.kv := by
  induction entries generalizing st with
  | nil => rfl
  | cons e t ih => rw [List.foldl_cons, ih]; rfl

/-- SREM batches do not change the string keys. -/
theorem kv_foldl_srem {α : Type} (entries : List (String × String))
    (st : RedisState α) :
    (entries.foldl (fun s e => srem s e.1 e.2) st).kv = st.kv := by
  induction entries generalizing st with
  | nil => rfl
  | cons e t ih => rw [List.foldl_cons, ih]; rfl

/-- A DEL batch deletes exactly the canonicalized keys. -/
theorem kv_foldl_kvDel {α : Type} (ks : List String) (st : RedisState α)
    (q : String) :
    (ks.foldl (fun s k => kvDel s (canonKey k)) st).kv q =
      if ∃ k, k ∈ ks ∧ canonKey k = q then none else st.kv q := by
  induction ks generalizing st with
  | nil => simp
  | cons k t ih =>
    rw [List.foldl_cons, ih]
    have hkd : (kvDel st (canonKey k)).kv q =
        if q = canonKey k then none else st.kv q := rfl
    rw [hkd]
    by_cases hex : ∃ x, x ∈ t ∧ canonKey x = q
    · rw [if_pos hex, if_pos]
      rcases hex with ⟨x, hx, hc⟩
      exact ⟨x, List.mem_cons_of_mem k hx, hc⟩
    · rw [if_neg hex]
      by_cases hq : q = canonKey k
      · rw [if_pos hq, if_pos ⟨k, List.mem_cons_self k t, hq.symm⟩]
      · rw [if_neg hq, if_neg]
        rintro ⟨x, hx, hc⟩
        rcases List.mem_cons.mp hx with rfl | hx'
        · exact hq hc.symm
        · exact hex ⟨x, hx', hc⟩

/-- String-key contents after set_all: every pair is stored under its
canonicalized key, the last pair writing a given canonical key wins,
and every other key is untouched. -/
theorem kv_set_all {α : Type} (st : RedisState α) (kvs : List (String × α))
    (q : String) :
    (set_all st kvs).kv q =
      kvs.foldl (fun acc p => if q = canonKey p.1 then some p.2 else acc) (st.kv q) := by
  by_cases hk : kvs.isEmpty
  · rw [List.isEmpty_iff] at hk
    subst hk
    simp [set_all]
  · simp only [set_all, if_neg hk]
    rw [kv_foldl_sadd, kv_foldl_kvSet]

/-- String-key contents after del_all: exactly the canonicalized forms
of the given keys are deleted. -/
theorem kv_del_all {α : Type} (st : RedisState α) (ks : List String) (q : String) :
    (del_all st ks).kv q =
      if ∃ k, k ∈ ks ∧ canonKey k = q then none else st.kv q := by
  by_cases hk : ks.isEmpty
  · rw [List.isEmpty_iff] at hk
    subst hk
    simp [del_all]
  · simp only [del_all, if_neg hk]
    rw [kv_foldl_srem, kv_foldl_kvDel]

/-- The pairs recorded by memberEntries are exactly those given by the
parsing rule the spec states. -/
theorem memberEntries_iff (k n m : String) :
    (n, m) ∈ memberEntries k ↔ specIndexRule k n m := by
  simp only [memberEntries, specIndexRule]
  by_cases h2 : 2 < (get_keys k).length
  · have h1 : 1 < (get_keys k).length := by omega
    rw [if_pos h1, if_pos h2]
    by_cases h3 : (get_keys k).getD 0 "" = MESSAGE_KEY
    · rw [if_neg (not_not_intro h3)]
      simp only [List.mem_append, List.mem_singleton, Prod.mk.injEq]
      constructor
      · rintro (⟨hn, hm⟩ | ⟨hn, hm⟩)
        · exact ⟨hm, Or.inl ⟨hn, h1⟩⟩
        · exact ⟨hm, Or.inr (Or.inr ⟨hn, h2, h3⟩)⟩
      · rintro ⟨hm, (⟨hn, -⟩ | ⟨hn, -, hmk⟩ | ⟨hn, -, -⟩)⟩
        · exact Or.inl ⟨hn, hm⟩
        · exact absurd h3 hmk
        · exact Or.inr ⟨hn, hm⟩
    · rw [if_pos h3]
      simp only [List.mem_append, List.mem_singleton, Prod.mk.injEq]
      constructor
      · rintro (⟨hn, hm⟩ | ⟨hn, hm⟩)
        · exact ⟨hm, Or.inl ⟨hn, h1⟩⟩
        · exact ⟨hm, Or.inr (Or.inl ⟨hn, h2, h3⟩)⟩
      · rintro ⟨hm, (⟨hn, -⟩ | ⟨hn, -, -⟩ | ⟨hn, -, hmk⟩)⟩
        · exact Or.inl ⟨hn, hm⟩
        · exact Or.inr ⟨hn, hm⟩
        · exact absurd hmk h3
  · rw [if_neg h2]
    by_cases h1 : 1 < (get_keys k).length
    · rw [if_pos h1]
      simp only [List.append_nil, List.mem_singleton, Prod.mk.injEq]
      constructor
      · rintro ⟨hn, hm⟩
        exact ⟨hm, Or.inl ⟨hn, h1⟩⟩
      · rintro ⟨hm, (⟨hn, -⟩ | ⟨-, hl, -⟩ | ⟨-, hl, -⟩)⟩
        · exact ⟨hn, hm⟩
        · exact absurd hl h2
        · exact absurd hl h2
    · rw [if_neg h1]
      constructor
      · intro h
        exact absurd h (by simp)
      · rintro ⟨-, (⟨-, hl⟩ | ⟨-, hl, -⟩ | ⟨-, hl, -⟩)⟩
        · exact absurd hl h1
        · exact absurd hl h2
        · exact absurd hl h2

/-- C2: the shared key-parsing rule.  Values are stored by set_all
under the canonicalized key (channel keys with more than two parts are
rewritten to channel:(parts[2]), every other key is unchanged; the last
pair writing a canonical key wins and no other string key is touched),
and del_all symmetrically deletes exactly the canonicalized keys.  A
member m appears in index set n after set_all exactly when it was
already there or one of the written keys records it under the rule
(prefix sets when more than one part, the guild_keys or channel_keys
split on the message prefix when more than two parts), and
symmetrically del_all removes exactly the recorded memberships; no
other index set is touched. -/
theorem set_del_index_rule {α : Type} (st : RedisState α) (kvs : List (String × α))
    (ks : List String) (n m q : String) :
    ((set_all st kvs).kv q =
      kvs.foldl (fun acc p => if q = canonKey p.1 then some p.2 else acc) (st.kv q)) ∧
    ((del_all st ks).kv q =
      if ∃ k, k ∈ ks ∧ canonKey k = q then none else st.kv q) ∧
    (m ∈ (set_all st kvs).sets n ↔
      m ∈ st.sets n ∨ ∃ p, p ∈ kvs ∧ specIndexRule p.1 n m) ∧
    (m ∈ (del_all st ks).sets n ↔
      m ∈ st.sets n ∧ ∀ k, k ∈ ks → ¬ specIndexRule k n m) := by
  refine ⟨kv_set_all st kvs q, kv_del_all st ks q, ?_, ?_⟩
  · rw [sets_set_all]
    have hflat : ((n, m) ∈ (kvs.map fun p => memberEntries p.1).flatten) ↔
        ∃ p, p ∈ kvs ∧ specIndexRule p.1 n m := by
      simp only [List.mem_flatten, List.mem_map]
      constructor
      · rintro ⟨a, ⟨p, hp, rfl⟩, hmem⟩
        exact ⟨p, hp, (memberEntries_iff _ _ _).mp hmem⟩
      · rintro ⟨p, hp, hr⟩
        exact ⟨memberEntries p.1, ⟨p, hp, rfl⟩, (memberEntries_iff _ _ _).mpr hr⟩
    rw [hflat]
  · rw [sets_del_all]
    have hflat : ((n, m) ∈ (ks.map memberEntries).flatten) ↔
        ∃ k, k ∈ ks ∧ specIndexRule k n m := by
      simp only [List.mem_flatten, List.mem_map]
      constructor
      · rintro ⟨a, ⟨k, hk, rfl⟩, hmem⟩
        exact ⟨k, hk, (memberEntries_iff _ _ _).mp hmem⟩
      · rintro ⟨k, hk, hr⟩
        exact ⟨memberEntries k, ⟨k, hk, rfl⟩, (memberEntries_iff _ _ _).mpr hr⟩
    rw [hflat]
    simp [not_exists]

/-- The channel drain loop of the GuildCreate branch appends the
filtered text channels. -/
theorem foldl_channels (gid : Nat) (l : List GChannel) (acc : List (String × GuildItem)) :
    l.foldl
      (fun acc c =>
        match c with
        | .text tc =>
          acc ++ [(channel_key gid tc.id,
            GuildItem.channel (.text { tc with guild_id := some gid }))]
        | .other _ => acc)
      acc =
    acc ++ l.filterMap fun c =>
      match c with
      | .text tc =>
        some (channel_key gid tc.id,
          GuildItem.channel (.text { tc with guild_id := some gid }))
      | .other _ => none := by
  induction l generalizing acc with
  | nil => simp
  | cons c t ih =>
    cases c with
    | text tc => simp [List.foldl_cons, List.filterMap_cons, ih, List.append_assoc]
    | other i => simp [List.foldl_cons, List.filterMap_cons, ih]

/-- The role drain loop of the GuildCreate branch appends the mapped
roles. -/
theorem foldl_roles (gid : Nat) (l : List GRole) (acc : List (String × GuildItem)) :
    l.foldl (fun acc r => acc ++ [(role_key gid r.id, GuildItem.role r)]) acc =
      acc ++ l.map fun r => (role_key gid r.id, GuildItem.role r) := by
  induction l generalizing acc with
  | nil => simp
  | cons r t ih => simp [List.foldl_cons, ih, List.append_assoc]

/-- The member drain loop of the GuildCreate branch appends the mapped
members kept by the caching condition. -/
theorem foldl_members (cfg : Config) (bot gid : Nat) (l : List GMember)
    (acc : List (String × GuildItem)) :
    l.foldl
      (fun acc m =>
        if cfg.state_member || m.user_id == bot then
          acc ++ [(member_key gid m.user_id, GuildItem.member m)]
        else acc)
      acc =
    acc ++ (l.filter fun m => cfg.state_member || m.user_id == bot).map
      fun m => (member_key gid m.user_id, GuildItem.member m) := by
  induction l generalizing acc with
  | nil => simp
  | cons x t ih =>
    rw [List.foldl_cons, List.filter_cons]
    by_cases hp : (cfg.state_member || x.user_id == bot) = true
    · rw [if_pos hp, if_pos hp, ih, List.map_cons, List.append_assoc,
        List.singleton_append]
    · rw [if_neg hp, if_neg hp, ih]

/-- C3: the GuildCreate branch of update first cascade-deletes the
existing guild, then writes in one batched set_all exactly the text
channels of the payload stamped with the guild id, the roles, the
members kept when member caching is enabled or the member is the bot
user, and the guild record; when member caching and a member ttl are
both configured it additionally writes one expiry entry per member of
the payload. -/
theorem guildCreate_projection (cfg : Config) (bot now : Nat)
    (st : RedisState GuildItem) (g : Guild) :
    update cfg bot now st (.guildCreate g) =
      ((match cfg.state_member, cfg.state_member_ttl with
        | true, some ttl =>
          expire_all (set_all (clear_guild st g.id).1 (gcItems cfg bot g)) now
            (g.members.map fun m => (member_key g.id m.user_id, ttl))
        | _, _ => set_all (clear_guild st g.id).1 (gcItems cfg bot g)),
       (clear_guild st g.id).2) := by
  simp only [update]
  rw [foldl_channels, foldl_roles, foldl_members]
  simp only [List.nil_append, gcItems, List.append_assoc]
  cases hm : cfg.state_member <;> cases ht : cfg.state_member_ttl <;>
    simp [Option.filter, hm, ht]

/-- The recursive ranges list has one range per cluster. -/
theorem rangesFrom_length (base : Nat) :
    ∀ (n last extra : Nat), (rangesFrom base last extra n).length = n := by
  intro n
  induction n with
  | zero => intro last extra; cases extra <;> rfl
  | succ k ih =>
    intro last extra
    cases extra with
    | zero => simp [rangesFrom, ih]
    | succ e => simp [rangesFrom, ih]

/-- Closed form of the i-th emitted range.  The invariant rules out the
degenerate wrap of last + base - 1 at last = base = 0, which the loop
never reaches. -/
theorem rangesFrom_getD (base : Nat) :
    ∀ (n last extra i : Nat), i < n → (0 < base ∨ 0 < last ∨ 0 < extra) →
      (rangesFrom base last extra n).getD i (0, 0) =
        (last + i * base + min i extra,
         last + (i + 1) * base + min (i + 1) extra - 1) := by
  intro n
  induction n with
  | zero => intro last extra i hi hinv; exact absurd hi (Nat.not_lt_zero i)
  | succ k ih =>
    intro last extra i hi hinv
    cases extra with
    | succ e =>
      cases i with
      | zero =>
        simp only [rangesFrom, List.getD_cons_zero, Prod.mk.injEq]
        constructor <;> omega
      | succ j =>
        have hj : j < k := by omega
        have hinv' : 0 < base ∨ 0 < last + base + 1 ∨ 0 < e :=
          Or.inr (Or.inl (by omega))
        have hrec := ih (last + base + 1) e j hj hinv'
        simp only [rangesFrom, List.getD_cons_succ]
        rw [hrec]
        have hm2 : (j + 1 + 1) * base = (j + 1) * base + base :=
          Nat.succ_mul (j + 1) base
        have hm1 : (j + 1) * base = j * base + base := Nat.succ_mul j base
        rw [hm2, hm1]
        simp only [Prod.mk.injEq]
        constructor <;> omega
    | zero =>
      have hlb : 0 < base ∨ 0 < last := by
        rcases hinv with h | h | h
        · exact Or.inl h
        · exact Or.inr h
        · exact absurd h (by omega)
      cases i with
      | zero =>
        simp only [rangesFrom, List.getD_cons_zero, Prod.mk.injEq]
        constructor <;> omega
      | succ j =>
        have hj : j < k := by omega
        have hinv' : 0 < base ∨ 0 < last + base ∨ 0 < 0 := by
          rcases hlb with h | h
          · exact Or.inl h
          · exact Or.inr (Or.inl (by omega))
        have hrec := ih (last + base) 0 j hj hinv'
        simp only [rangesFrom, List.getD_cons_succ]
        rw [hrec]
        have hm2 : (j + 1 + 1) * base = (j + 1) * base + base :=
          Nat.succ_mul (j + 1) base
        have hm1 : (j + 1) * base = j * base + base := Nat.succ_mul j base
        rw [hm2, hm1]
        simp only [Prod.mk.injEq]
        constructor <;> omega

/-- The union of the emitted ranges is the contiguous block of
n * base + extra shards starting at last. -/
theorem rangesFrom_cover (base : Nat) :
    ∀ (n last extra : Nat), extra ≤ n → (0 < base ∨ 0 < last ∨ 0 < extra) →
      ∀ s, (∃ r ∈ rangesFrom base last extra n, r.1 ≤ s ∧ s ≤ r.2) ↔
        (last ≤ s ∧ s < last + n * base + extra) := by
  intro n
  induction n with
  | zero =>
    intro last extra he hinv s
    have hz : extra = 0 := by omega
    subst hz
    simp [rangesFrom]
  | succ k ih =>
    intro last extra he hinv s
    have hm : (k + 1) * base = k * base + base := Nat.succ_mul k base
    cases extra with
    | succ e =>
      have htail := ih (last + base + 1) e (by omega) (Or.inr (Or.inl (by omega))) s
      simp only [rangesFrom, List.mem_cons]
      constructor
      · rintro ⟨r, hmem, h1, h2⟩
        rcases hmem with rfl | hr
        · simp only at h1 h2
          constructor <;> omega
        · have := htail.mp ⟨r, hr, h1, h2⟩
          constructor <;> omega
      · rintro ⟨hls, hup⟩
        by_cases hsb : s ≤ last + base
        · exact ⟨(last, last + base), Or.inl rfl, hls, hsb⟩
        · have htl := htail.mpr ⟨by omega, by omega⟩
          rcases htl with ⟨r, hr, h1, h2⟩
          exact ⟨r, Or.inr hr, h1, h2⟩
    | zero =>
      have hlb : 0 < base ∨ 0 < last := by
        rcases hinv with h | h | h
        · exact Or.inl h
        · exact Or.inr h
        · exact absurd h (by omega)
      have hinv' : 0 < base ∨ 0 < last + base ∨ 0 < 0 := by
        rcases hlb with h | h
        · exact Or.inl h
        · exact Or.inr (Or.inl (by omega))
      have htail := ih (last + base) 0 (by omega) hinv' s
      simp only [rangesFrom, List.mem_cons]
      constructor
      · rintro ⟨r, hmem, h1, h2⟩
        rcases hmem with rfl | hr
        · simp only at h1 h2
          rcases hlb with hb | hl <;> constructor <;> omega
        · have := htail.mp ⟨r, hr, h1, h2⟩
          constructor <;> omega
      · rintro ⟨hls, hup⟩
        by_cases hsb : s ≤ last + base - 1
        · exact ⟨(last, last + base - 1), Or.inl rfl, hls, hsb⟩
        · have hge : last + base ≤ s := by rcases hlb with hb | hl <;> omega
          have htl := htail.mpr ⟨hge, by omega⟩
          rcases htl with ⟨r, hr, h1, h2⟩
          exact ⟨r, Or.inr hr, h1, h2⟩

/-- The loop of get_clusters emits exactly the recursive ranges list,
counting how many of the remaining clusters still take an extra
shard. -/
theorem get_clusters_loop (base extra : Nat) :
    ∀ (n k : Nat) (acc : List (Nat × Nat)) (last : Nat),
      (0 < base ∨ 0 < last ∨ k < extra) →
      ((List.range' k n).foldl
        (fun (st : List (Nat × Nat) × Nat) i =>
          let last := st.2
          let index := if i < extra then last + base else last + base - 1
          (st.1 ++ [(last, index)], index + 1))
        (acc, last)).1 = acc ++ rangesFrom base last (extra - k) n := by
  intro n
  induction n with
  | zero => intro k acc last hinv; simp [rangesFrom]
  | succ p ih =>
    intro k acc last hinv
    rw [show List.range' k (p + 1) = k :: List.range' (k + 1) p from rfl,
      List.foldl_cons]
    dsimp only
    by_cases hk : k < extra
    · rw [if_pos hk]
      have hinv' : 0 < base ∨ 0 < last + base + 1 ∨ k + 1 < extra :=
        Or.inr (Or.inl (by omega))
      rw [ih (k + 1) _ _ hinv']
      have hsub : extra - k = (extra - (k + 1)) + 1 := by omega
      rw [hsub]
      simp [rangesFrom, List.append_assoc]
    · rw [if_neg hk]
      have hlb : 0 < last + base := by
        rcases hinv with h | h | h <;> omega
      have hinv' : 0 < base ∨ 0 < last + base - 1 + 1 ∨ k + 1 < extra :=
        Or.inr (Or.inl (by omega))
      rw [ih (k + 1) _ _ hinv']
      have hsub : extra - k = 0 := by omega
      have hsub' : extra - (k + 1) = 0 := by omega
      rw [hsub, hsub']
      have hidx : last + base - 1 + 1 = last + base := by omega
      rw [hidx]
      simp [rangesFrom, List.append_assoc]

/-- The partition invariant holds at loop entry: either every cluster
takes at least base one shard, or there is at least one extra shard,
because the owned shard count is positive. -/
theorem get_clusters_inv (c : Config) (hcl : 0 < c.clusters) :
    0 < get_shards c / c.clusters ∨ 0 < c.shards_start ∨
      0 < get_shards c % c.clusters := by
  by_cases hb : 0 < get_shards c / c.clusters
  · exact Or.inl hb
  · right; right
    have hdiv : get_shards c / c.clusters = 0 :=
      Nat.le_zero.mp (Nat.not_lt.mp hb)
    have hlt : get_shards c < c.clusters := (Nat.div_eq_zero_iff hcl).mp hdiv
    have hmod : get_shards c % c.clusters = get_shards c := Nat.mod_eq_of_lt hlt
    have hpos : 0 < get_shards c := by
      simp only [get_shards]
      omega
    omega

/-- get_clusters computes the recursive ranges list. -/
theorem get_clusters_eq (c : Config) (hcl : 0 < c.clusters) :
    get_clusters c =
      rangesFrom (get_shards c / c.clusters) c.shards_start
        (get_shards c % c.clusters) c.clusters := by
  have hinv := get_clusters_inv c hcl
  simp only [get_clusters]
  rw [List.range_eq_range' c.clusters,
    get_clusters_loop (get_shards c / c.clusters) (get_shards c % c.clusters)
      c.clusters 0 [] c.shards_start (by simpa using hinv)]
  simp

/-- C5: get_clusters splits the owned shard range into exactly
clusters_count contiguous, pairwise disjoint sub-ranges whose union is
the whole owned range, where the first owned mod clusters_count
clusters receive one shard more than the remaining ones. -/
theorem get_clusters_partition (c : Config)
    (hse : c.shards_start ≤ c.shards_end) (hcl : 0 < c.clusters) :
    (get_clusters c).length = c.clusters ∧
    (∀ i, i < c.clusters →
      ((get_clusters c).getD i (0, 0)).2 + 1 - ((get_clusters c).getD i (0, 0)).1 =
        if i < get_shards c % c.clusters then get_shards c / c.clusters + 1
        else get_shards c / c.clusters) ∧
    (∀ i, i + 1 < c.clusters →
      ((get_clusters c).getD (i + 1) (0, 0)).1 =
        ((get_clusters c).getD i (0, 0)).2 + 1) ∧
    (∀ s, (c.shards_start ≤ s ∧ s ≤ c.shards_end) ↔
      ∃ r ∈ get_clusters c, r.1 ≤ s ∧ s ≤ r.2) ∧
    (∀ i j s, i < j → j < c.clusters →
      ((get_clusters c).getD i (0, 0)).1 ≤ s →
      s ≤ ((get_clusters c).getD i (0, 0)).2 →
      ((get_clusters c).getD j (0, 0)).1 ≤ s →
      s ≤ ((get_clusters c).getD j (0, 0)).2 → False) := by
  have hinv := get_clusters_inv c hcl
  have hR := get_clusters_eq c hcl
  have hshards : c.clusters * (get_shards c / c.clusters) +
      get_shards c % c.clusters = get_shards c :=
    Nat.div_add_mod (get_shards c) c.clusters
  have hgs : get_shards c = c.shards_end - c.shards_start + 1 := rfl
  have hmodlt : get_shards c % c.clusters < c.clusters := Nat.mod_lt _ hcl
  refine ⟨?_, ?_, ?_, ?_, ?_⟩
  · rw [hR, rangesFrom_length]
  · intro i hi
    rw [hR, rangesFrom_getD _ _ _ _ i hi hinv]
    dsimp only
    have hm1 : (i + 1) * (get_shards c / c.clusters) =
        i * (get_shards c / c.clusters) + get_shards c / c.clusters :=
      Nat.succ_mul i _
    rw [hm1]
    set B := i * (get_shards c / c.clusters) with hB
    set D := get_shards c / c.clusters with hD
    set Md := get_shards c % c.clusters with hMd
    clear_value B D Md
    by_cases hie : i < Md
    · rw [if_pos hie,
        min_eq_left (show i + 1 ≤ Md by omega),
        min_eq_left (show i ≤ Md by omega)]
      rcases hinv with h | h | h <;> omega
    · rw [if_neg hie,
        min_eq_right (show Md ≤ i + 1 by omega),
        min_eq_right (show Md ≤ i by omega)]
      rcases hinv with h | h | h <;> omega
  · intro i hi
    rw [hR, rangesFrom_getD _ _ _ _ (i + 1) hi hinv,
      rangesFrom_getD _ _ _ _ i (by omega) hinv]
    dsimp only
    have hm1 : (i + 1) * (get_shards c / c.clusters) =
        i * (get_shards c / c.clusters) + get_shards c / c.clusters :=
      Nat.succ_mul i _
    rw [hm1]
    set B := i * (get_shards c / c.clusters) with hB
    set D := get_shards c / c.clusters with hD
    set Md := get_shards c % c.clusters with hMd
    set M := min (i + 1) Md with hM
    clear_value B D Md
    rcases hinv with h | h | h
    · omega
    · omega
    · have h1M : 1 ≤ M := by rw [hM]; exact le_min (by omega) h
      omega
  · intro s
    rw [hR]
    rw [rangesFrom_cover (get_shards c / c.clusters) c.clusters c.shards_start
      (get_shards c % c.clusters) (le_of_lt hmodlt) hinv s]
    set B := c.clusters * (get_shards c / c.clusters) with hB
    set Md := get_shards c % c.clusters with hMd
    set G := get_shards c with hG
    clear_value B Md G
    omega
  · intro i j s hij hj h1i h2i h1j h2j
    rw [hR, rangesFrom_getD _ _ _ _ i (by omega) hinv] at h1i h2i
    rw [hR, rangesFrom_getD _ _ _ _ j hj hinv] at h1j h2j
    dsimp only at h1i h2i h1j h2j
    have hm1 : (i + 1) * (get_shards c / c.clusters) =
        i * (get_shards c / c.clusters) + get_shards c / c.clusters :=
      Nat.succ_mul i _
    have hm2 : (j + 1) * (get_shards c / c.clusters) =
        j * (get_shards c / c.clusters) + get_shards c / c.clusters :=
      Nat.succ_mul j _
    have hmono : (i + 1) * (get_shards c / c.clusters) ≤
        j * (get_shards c / c.clusters) :=
      Nat.mul_le_mul_right _ (by omega)
    rw [hm1] at h2i hmono
    rw [hm2] at h2j
    have hminle : min (i + 1) (get_shards c % c.clusters) ≤
        min j (get_shards c % c.clusters) :=
      min_le_min (by omega) (le_refl _)
    set B1 := i * (get_shards c / c.clusters) with hB1
    set B2 := j * (get_shards c / c.clusters) with hB2
    set D := get_shards c / c.clusters with hD
    set Md := get_shards c % c.clusters with hMd
    set M1 := min (i + 1) Md with hM1
    set Mi := min i Md with hMi
    set Mj := min j Md with hMj
    set Mj1 := min (j + 1) Md with hMj1
    clear_value B1 B2 D Md
    rcases hinv with h | h | h
    · omega
    · omega
    · have h1M : 1 ≤ M1 := by rw [hM1]; exact le_min (by omega) h
      omega

/-- Witness for C5: ten shards in three clusters split as 4, 3, 3. -/
theorem get_clusters_partition_witness :
    (get_clusters ⟨false, none, 10, 0, 9, 3, false⟩ = [(0, 3), (4, 6), (7, 9)]) ∧
    ((0 : Nat) ≤ 9 ∧ (0 : Nat) < 3) ∧
    (get_clusters ⟨false, none, 10, 0, 9, 3, false⟩).length =
      (⟨false, none, 10, 0, 9, 3, false⟩ : Config).clusters :=
  ⟨by decide, ⟨by decide, by decide⟩,
   (get_clusters_partition ⟨false, none, 10, 0, 9, 3, false⟩
     (by decide) (by decide)).1⟩

end Dispatch
